import Mathlib

/-!
Shallow embedding of the Quay image pruner
(`config/registry_image_pruner/image_pruner/prune_images.py`).

The network transport (urlopen, retries, authentication) is abstracted
into oracles; everything else — the tag-filtering loop of `get_quay_tags`,
the status handling of `delete_image_tag`, the classification pass of
`remove_tags` with its `manifests_checked` memoisation, and the repository
loop of `process_repositories` — is translated directly from the source.
-/

namespace ImagePruner

/-- Errors that the Python code can raise while processing: a `KeyError`
from reading a missing dict key, a `RuntimeError` from an unexpected
successful status, or a re-raised `HTTPError` with its status code. -/
inductive RunError where
  | keyError : RunError
  | runtimeErr : RunError
  | httpError (status : Nat) : RunError
deriving DecidableEq, Repr

/-- Outcome of one HTTP request as seen by the caller of `urlopen`:
either a response object with a status, or a raised `HTTPError`. -/
inductive HttpOutcome where
  | ok (status : Nat) : HttpOutcome
  | httpError (status : Nat) : HttpOutcome
deriving DecidableEq, Repr

/-- Chars accepted by the `[0-9a-f]` character class of the tag regex. -/
def isHexChar (c : Char) : Bool :=
  (decide ('0' ≤ c) && decide (c ≤ '9')) || (decide ('a' ≤ c) && decide (c ≤ 'f'))

/-- The suffix alternatives of the regex
`^sha256-([0-9a-f]+)(\.sbom|\.att|\.src|\.sig|\.dockerfile)$`. -/
def artifactSuffixes : List (List Char) :=
  [".sbom".toList, ".att".toList, ".src".toList, ".sig".toList, ".dockerfile".toList]

/-- Python `re.match` with the anchored pattern
`^sha256-([0-9a-f]+)(\.sbom|\.att|\.src|\.sig|\.dockerfile)$`: returns
the first capture group (the hex digest) when the name matches.  Python's
`$` also matches just before one trailing newline, so that case is kept.
Because every suffix alternative starts with `.`, which is not a hex
char, greedy matching of `[0-9a-f]+` is equivalent to taking the maximal
hex-char run and testing the remainder against the alternatives. -/
def matchArtifact (s : String) : Option String :=
  let cs := s.toList
  if cs.take 7 = "sha256-".toList then
    let rest := cs.drop 7
    let hex := rest.takeWhile isHexChar
    let tail := rest.dropWhile isHexChar
    if !hex.isEmpty &&
        artifactSuffixes.any (fun suf => tail == suf || tail == suf ++ ['\n']) then
      some (String.mk hex)
    else none
  else none

/-- Python `s.endswith(suf)`. -/
def strEndsWith (s suf : String) : Bool :=
  let cs := s.toList
  let tl := suf.toList
  cs.drop (cs.length - tl.length) == tl

/-- Python `s.removesuffix(suf)`. -/
def removesuffix (s suf : String) : String :=
  if strEndsWith s suf then String.mk (s.toList.take (s.toList.length - suf.toList.length))
  else s

/-- Python `s.replace(":", "-")` (all occurrences; the pattern is a
single char, so this is a char-wise map). -/
def replaceColonDash (s : String) : String :=
  String.mk (s.toList.map (fun c => if c = ':' then '-' else c))

/-- One record of the Quay tag listing, keeping the fields the pruner
reads: `name`, `manifest_digest`, and the optional `start_ts` (a record
may lack it, which Python surfaces as a `KeyError` when read). -/
structure TagRecord where
  name : String
  manifest_digest : String
  start_ts : Option Int
deriving DecidableEq, Repr

/-- The inner `for tag in tags:` loop of `get_quay_tags` over one page:
builds `(name, manifest_digest)` pairs; with a time range it reads
`tag["start_ts"]` (a `KeyError` if absent) and either keeps an in-window
tag or sets `stop_query` and breaks, dropping that tag.  Returns the
collected pairs and the `stop_query` flag. -/
def collect_page (tr : Option (Int × Int)) :
    List TagRecord → Except RunError (List (String × String) × Bool)
  | [] => .ok ([], false)
  | t :: ts =>
    let info := (t.name, t.manifest_digest)
    match tr with
    | some (from_ts, to_ts) =>
      match t.start_ts with
      | none => .error RunError.keyError
      | some ts0 =>
        if to_ts ≤ ts0 ∧ ts0 ≤ from_ts then
          match collect_page tr ts with
          | .error e => .error e
          | .ok (infos, stop) => .ok (info :: infos, stop)
        else .ok ([], true)
    | none =>
      match collect_page tr ts with
      | .error e => .error e
      | .ok (infos, stop) => .ok (info :: infos, stop)

/-- The page loop of `get_quay_tags`, with the HTTP transport abstracted
into the list of pages the server would return in order (`has_additional`
is true exactly while further pages remain).  Mirrors the source: after
a page, stop if `stop_query` was set, stop if the page was empty,
otherwise continue with the next page. -/
def get_quay_tags (tr : Option (Int × Int)) :
    List (List TagRecord) → Except RunError (List (String × String))
  | [] => .ok []
  | page :: rest =>
    match collect_page tr page with
    | .error e => .error e
    | .ok (infos, stop) =>
      if stop then .ok infos
      else if page.isEmpty then .ok infos
      else
        match get_quay_tags tr rest with
        | .error e => .error e
        | .ok more => .ok (infos ++ more)

/-- `delete_image_tag`, as a function of the HTTP outcome of the DELETE
call: a successful response with status other than 200/204 raises
`RuntimeError`; a 404 `HTTPError` is ignored; any other `HTTPError` is
re-raised.  `none` means the function returned normally. -/
def delete_image_tag (resp : HttpOutcome) : Option RunError :=
  match resp with
  | .ok status => if status ≠ 200 ∧ status ≠ 204 then some RunError.runtimeErr else none
  | .httpError status => if status ≠ 404 then some (RunError.httpError status) else none

/-- Observable trace of one `remove_tags` pass: the `manifests_checked`
cache, the digests passed to `manifest_exists` (in call order), the tag
names passed to `delete_image_tag`, and the tag names logged as removal
decisions (both the dry-run report lines and the real removal lines). -/
structure PassState where
  checked : List (String × Bool)
  checks : List String
  deletes : List String
  removalLogs : List String
deriving DecidableEq, Repr

def initPassState : PassState := ⟨[], [], [], []⟩

/-- Python `manifests_checked.get(d)`. -/
def cacheGet (c : List (String × Bool)) (d : String) : Option Bool :=
  (c.find? (fun p => p.1 == d)).map Prod.snd

/-- Python `tags_map[k]` / `k in tags_map` on the name → digest dict. -/
def lookupTag (tagsMap : List (String × String)) (k : String) : Option String :=
  (tagsMap.find? (fun p => p.1 == k)).map Prod.snd

/-- The removal action shared by both rules: log the tag, and unless
`dry_run` is set, call `delete_image_tag` (whose raised error, if any,
propagates). -/
def issueRemoval (del : String → Option RunError) (dry_run : Bool)
    (st : PassState) (tag_name : String) : PassState × Option RunError :=
  if dry_run then
    ({ st with removalLogs := st.removalLogs ++ [tag_name] }, none)
  else
    ({ st with removalLogs := st.removalLogs ++ [tag_name],
               deletes := st.deletes ++ [tag_name] }, del tag_name)

/-- The body of `remove_tags`'s `for tag_name in tags_map:` loop for one
tag name.  `ex` is the `manifest_exists` oracle, `del` the
`delete_image_tag` oracle (`none` = returned normally); `tagsMap` is the
`tags_map` dict as a name → digest association list. -/
def processTagE (ex : String → Bool) (del : String → Option RunError)
    (tagsMap : List (String × String)) (dry_run : Bool)
    (st : PassState) (tag_name : String) : PassState × Option RunError :=
  match matchArtifact tag_name with
  | some hex =>
    let target := "sha256:" ++ hex
    if (tagsMap.map Prod.snd).contains target then (st, none)
    else
      match cacheGet st.checked target with
      | some b =>
        if b then (st, none) else issueRemoval del dry_run st tag_name
      | none =>
        let b := ex target
        let st1 : PassState :=
          { st with checked := st.checked ++ [(target, b)],
                    checks := st.checks ++ [target] }
        if b then (st1, none) else issueRemoval del dry_run st1 tag_name
  | none =>
    if strEndsWith tag_name ".src" then
      let to_delete :=
        match lookupTag tagsMap (removesuffix tag_name ".src") with
        | none => true
        | some manifest_digest =>
          (tagsMap.map Prod.fst).contains (replaceColonDash manifest_digest ++ ".src")
      if to_delete then issueRemoval del dry_run st tag_name else (st, none)
    else (st, none)

/-- The `for tag_name in tags_map:` loop, aborting (like a raised
exception) at the first tag whose processing fails. -/
def remove_tagsE_go (ex : String → Bool) (del : String → Option RunError)
    (tagsMap : List (String × String)) (dry_run : Bool) :
    PassState → List String → PassState × Option RunError
  | st, [] => (st, none)
  | st, t :: ts =>
    match processTagE ex del tagsMap dry_run st t with
    | (st1, none) => remove_tagsE_go ex del tagsMap dry_run st1 ts
    | (st1, some e) => (st1, some e)

/-- `remove_tags` over the dict items (unique names, insertion order),
with fallible deletes. -/
def remove_tagsE (tagsMap : List (String × String)) (ex : String → Bool)
    (del : String → Option RunError) (dry_run : Bool) : PassState × Option RunError :=
  remove_tagsE_go ex del tagsMap dry_run initPassState (tagsMap.map Prod.fst)

/-- `remove_tags` in a run where every delete call succeeds. -/
def remove_tags (tagsMap : List (String × String)) (ex : String → Bool)
    (dry_run : Bool) : PassState :=
  (remove_tagsE tagsMap ex (fun _ => none) dry_run).1

/-- One repository, identified by Quay namespace and name. -/
structure RepoId where
  ns : String
  name : String
deriving DecidableEq, Repr

/-- The body of `process_repositories`'s loop for one repository:
fetch the tags (`get_quay_tags` over the pages the server holds for that
repository), skip the repository if the list is empty (`continue`),
otherwise run `remove_tags`.  Returns the error the body raises, if
any. -/
def repoStep (pagesOf : RepoId → List (List TagRecord)) (tr : Option (Int × Int))
    (ex : RepoId → String → Bool) (del : RepoId → String → Option RunError)
    (dry_run : Bool) (r : RepoId) : Option RunError :=
  match get_quay_tags tr (pagesOf r) with
  | .error e => some e
  | .ok all_tags =>
    if all_tags.isEmpty then none
    else (remove_tagsE all_tags (ex r) (del r) dry_run).2

/-- `process_repositories`: the loop over the repository batch.  There
is no exception handling in the source, so an error raised by one
repository's body propagates and ends the whole loop.  Returns the list
of repositories whose processing was started, and the propagated error
(if any). -/
def process_repositories (pagesOf : RepoId → List (List TagRecord))
    (tr : Option (Int × Int)) (ex : RepoId → String → Bool)
    (del : RepoId → String → Option RunError) (dry_run : Bool) :
    List RepoId → List RepoId × Option RunError
  | [] => ([], none)
  | r :: rs =>
    match repoStep pagesOf tr ex del dry_run r with
    | some e => ([r], some e)
    | none =>
      let res := process_repositories pagesOf tr ex del dry_run rs
      (r :: res.1, res.2)

/-! Derived descriptions of the classification pass, used to state and
prove its properties. -/

/-- Whether one pass over `tag_name` reaches a removal decision
(assuming the cache is consistent with the oracle `ex`): rule 1 deletes
an artifact tag whose embedded digest is absent from the snapshot and
whose manifest the oracle reports as gone; rule 2 deletes a legacy
`.src` tag whose binary tag is gone or superseded by the canonical
name. -/
def shouldDelete (tagsMap : List (String × String)) (ex : String → Bool)
    (t : String) : Bool :=
  match matchArtifact t with
  | some hex =>
    let target := "sha256:" ++ hex
    if (tagsMap.map Prod.snd).contains target then false else !(ex target)
  | none =>
    if strEndsWith t ".src" then
      match lookupTag tagsMap (removesuffix t ".src") with
      | none => true
      | some manifest_digest =>
        (tagsMap.map Prod.fst).contains (replaceColonDash manifest_digest ++ ".src")
    else false

/-- The digest for which processing `t` may consult `manifest_exists`:
only rule 1 ever does, and only when the embedded digest is absent from
the snapshot's digests. -/
def needsCheckT (tagsMap : List (String × String)) (t : String) : Option String :=
  match matchArtifact t with
  | some hex =>
    let target := "sha256:" ++ hex
    if (tagsMap.map Prod.snd).contains target then none else some target
  | none => none

/-- Consistency of the trace's cache with the oracle: `checks` is
exactly the cached digests in insertion order, and every cached value is
the oracle's answer. -/
def CacheInv (ex : String → Bool) (st : PassState) : Prop :=
  st.checks = st.checked.map Prod.fst ∧ ∀ p ∈ st.checked, p.2 = ex p.1

/-- Membership test used by `get_quay_tags`'s time filter: the record
has a `start_ts` lying in `[to_ts, from_ts]`. -/
def inWindow (from_ts to_ts : Int) (r : TagRecord) : Bool :=
  match r.start_ts with
  | none => false
  | some ts0 => decide (to_ts ≤ ts0 ∧ ts0 ≤ from_ts)

/-! Basic lemmas about the cache and dict lookups. -/

theorem cacheGet_mem {c : List (String × Bool)} {d : String} {b : Bool}
    (h : cacheGet c d = some b) : (d, b) ∈ c := by
  unfold cacheGet at h
  cases hf : c.find? (fun p => p.1 == d) with
  | none => rw [hf] at h; simp at h
  | some p =>
    rw [hf] at h
    have hp := List.find?_some hf
    have hmem := List.mem_of_find?_eq_some hf
    obtain ⟨p1, p2⟩ := p
    simp at h hp
    rw [hp, h] at hmem
    exact hmem

theorem cacheGet_none {c : List (String × Bool)} {d : String}
    (h : cacheGet c d = none) : d ∉ c.map Prod.fst := by
  unfold cacheGet at h
  intro hmem
  obtain ⟨p, hp, hd⟩ := List.mem_map.mp hmem
  cases hf : c.find? (fun p => p.1 == d) with
  | none =>
    have := List.find?_eq_none.mp hf p hp
    simp [hd] at this
  | some q => rw [hf] at h; simp at h

theorem lookupTag_none {M : List (String × String)} {k : String}
    (h : lookupTag M k = none) : k ∉ M.map Prod.fst := by
  unfold lookupTag at h
  intro hmem
  obtain ⟨p, hp, hd⟩ := List.mem_map.mp hmem
  cases hf : M.find? (fun p => p.1 == k) with
  | none =>
    have := List.find?_eq_none.mp hf p hp
    simp [hd] at this
  | some q => rw [hf] at h; simp at h

theorem lookupTag_isSome_of_mem {M : List (String × String)} {k : String}
    (h : k ∈ M.map Prod.fst) : (lookupTag M k).isSome := by
  cases hl : lookupTag M k with
  | none => exact absurd h (lookupTag_none hl)
  | some v => rfl

/-! The step lemma: one iteration of the `remove_tags` loop, described
through `shouldDelete` and `needsCheckT`. -/

theorem issueRemoval_spec (del : String → Option RunError) (dry_run : Bool)
    (st : PassState) (t : String) :
    (issueRemoval del dry_run st t).1.checked = st.checked ∧
    (issueRemoval del dry_run st t).1.checks = st.checks ∧
    (issueRemoval del dry_run st t).1.removalLogs = st.removalLogs ++ [t] ∧
    (issueRemoval del dry_run st t).1.deletes
      = st.deletes ++ (if dry_run = false then [t] else []) ∧
    (issueRemoval del dry_run st t).2 = (if dry_run = false then del t else none) := by
  cases dry_run <;> simp [issueRemoval]

theorem processTagE_spec (ex : String → Bool) (del : String → Option RunError)
    (tagsMap : List (String × String)) (dry_run : Bool) (st : PassState) (t : String)
    (hinv : CacheInv ex st) :
    CacheInv ex (processTagE ex del tagsMap dry_run st t).1 ∧
    (processTagE ex del tagsMap dry_run st t).1.removalLogs
      = st.removalLogs ++ (if shouldDelete tagsMap ex t then [t] else []) ∧
    (processTagE ex del tagsMap dry_run st t).1.deletes
      = st.deletes ++ (if dry_run = false ∧ shouldDelete tagsMap ex t = true then [t] else []) ∧
    (processTagE ex del tagsMap dry_run st t).1.checks
      = st.checks ++ (match needsCheckT tagsMap t with
          | some d => if d ∈ st.checks then [] else [d]
          | none => []) ∧
    (processTagE ex del tagsMap dry_run st t).2
      = (if dry_run = false ∧ shouldDelete tagsMap ex t = true then del t else none) := by
  obtain ⟨hck, hval⟩ := hinv
  cases hm : matchArtifact t with
  | some hex =>
    cases hc : (tagsMap.map Prod.snd).contains ("sha256:" ++ hex) with
    | true =>
      have hsd : shouldDelete tagsMap ex t = false := by
        simp only [shouldDelete, hm]; rw [hc]; simp
      have hnc : needsCheckT tagsMap t = none := by
        simp only [needsCheckT, hm]; rw [hc]; simp
      have hpt : processTagE ex del tagsMap dry_run st t = (st, none) := by
        simp only [processTagE, hm]; rw [hc]; simp
      rw [hpt, hsd, hnc]
      exact ⟨⟨hck, hval⟩, by simp, by simp, by simp, by simp⟩
    | false =>
      have hnc : needsCheckT tagsMap t = some ("sha256:" ++ hex) := by
        simp only [needsCheckT, hm]; rw [hc]; simp
      cases hg : cacheGet st.checked ("sha256:" ++ hex) with
      | some b =>
        have hb : b = ex ("sha256:" ++ hex) := hval _ (cacheGet_mem hg)
        have hsd : shouldDelete tagsMap ex t = !b := by
          simp only [shouldDelete, hm]; rw [hc, hb]; simp
        have hmemchk : ("sha256:" ++ hex) ∈ st.checks := by
          rw [hck]
          exact List.mem_map.mpr ⟨_, cacheGet_mem hg, rfl⟩
        cases b with
        | true =>
          have hpt : processTagE ex del tagsMap dry_run st t = (st, none) := by
            simp only [processTagE, hm]; rw [hc, hg]; simp
          rw [hpt, hsd, hnc]
          exact ⟨⟨hck, hval⟩, by simp, by simp, by simp [hmemchk], by simp⟩
        | false =>
          have hpt : processTagE ex del tagsMap dry_run st t
              = issueRemoval del dry_run st t := by
            simp only [processTagE, hm]; rw [hc, hg]; simp
          obtain ⟨i1, i2, i3, i4, i5⟩ := issueRemoval_spec del dry_run st t
          rw [hpt, hsd, hnc]
          refine ⟨⟨by rw [i2, i1, hck], by rw [i1]; exact hval⟩, ?_, ?_, ?_, ?_⟩
          · rw [i3]; simp
          · rw [i4]; cases dry_run <;> simp
          · rw [i2]; simp [hmemchk]
          · rw [i5]; cases dry_run <;> simp
      | none =>
        have hnotchk : ("sha256:" ++ hex) ∉ st.checks := by
          rw [hck]; exact cacheGet_none hg
        have hsd : shouldDelete tagsMap ex t = !(ex ("sha256:" ++ hex)) := by
          simp only [shouldDelete, hm]; rw [hc]; simp
        cases hb : ex ("sha256:" ++ hex) with
        | true =>
          have hpt : processTagE ex del tagsMap dry_run st t
              = ({ st with checked := st.checked ++ [("sha256:" ++ hex, ex ("sha256:" ++ hex))],
                           checks := st.checks ++ ["sha256:" ++ hex] }, none) := by
            simp only [processTagE, hm]; rw [hc, hg, hb]; simp
          rw [hpt, hsd, hnc, hb]
          refine ⟨⟨by simp [hck], ?_⟩, by simp, by simp, by simp [hnotchk], by simp⟩
          intro p hp
          rcases List.mem_append.mp hp with h1 | h1
          · exact hval p h1
          · simp at h1; rw [h1, hb]
        | false =>
          have hpt : processTagE ex del tagsMap dry_run st t
              = issueRemoval del dry_run
                  { st with checked := st.checked ++ [("sha256:" ++ hex, false)],
                            checks := st.checks ++ ["sha256:" ++ hex] } t := by
            simp only [processTagE, hm]; rw [hc, hg, hb]; simp
          obtain ⟨i1, i2, i3, i4, i5⟩ :=
            issueRemoval_spec del dry_run
              { st with checked := st.checked ++ [("sha256:" ++ hex, false)],
                        checks := st.checks ++ ["sha256:" ++ hex] } t
          rw [hpt, hsd, hnc, hb]
          refine ⟨⟨?_, ?_⟩, ?_, ?_, ?_, ?_⟩
          · rw [i2, i1]; simp [hck]
          · rw [i1]
            intro p hp
            rcases List.mem_append.mp hp with h1 | h1
            · exact hval p h1
            · simp at h1; rw [h1, hb]
          · rw [i3]; simp
          · rw [i4]; cases dry_run <;> simp
          · rw [i2]; simp [hnotchk]
          · rw [i5]; cases dry_run <;> simp
  | none =>
    have hnc : needsCheckT tagsMap t = none := by simp only [needsCheckT, hm]
    cases hs : strEndsWith t ".src" with
    | true =>
      cases hl : lookupTag tagsMap (removesuffix t ".src") with
      | none =>
        have hsd : shouldDelete tagsMap ex t = true := by
          simp only [shouldDelete, hm]; rw [hs, hl]; simp
        have hpt : processTagE ex del tagsMap dry_run st t
            = issueRemoval del dry_run st t := by
          simp only [processTagE, hm]; rw [hs, hl]; simp
        obtain ⟨i1, i2, i3, i4, i5⟩ := issueRemoval_spec del dry_run st t
        rw [hpt, hsd, hnc]
        refine ⟨⟨by rw [i2, i1, hck], by rw [i1]; exact hval⟩, ?_, ?_, ?_, ?_⟩
        · rw [i3]; simp
        · rw [i4]; cases dry_run <;> simp
        · rw [i2]; simp
        · rw [i5]; cases dry_run <;> simp
      | some manifest_digest =>
        cases hcan :
            (tagsMap.map Prod.fst).contains (replaceColonDash manifest_digest ++ ".src") with
        | true =>
          have hsd : shouldDelete tagsMap ex t = true := by
            simp only [shouldDelete, hm]; rw [hs, hl]; simp only [hcan]; simp
          have hpt : processTagE ex del tagsMap dry_run st t
              = issueRemoval del dry_run st t := by
            simp only [processTagE, hm]; rw [hs, hl]; simp only [hcan]; simp
          obtain ⟨i1, i2, i3, i4, i5⟩ := issueRemoval_spec del dry_run st t
          rw [hpt, hsd, hnc]
          refine ⟨⟨by rw [i2, i1, hck], by rw [i1]; exact hval⟩, ?_, ?_, ?_, ?_⟩
          · rw [i3]; simp
          · rw [i4]; cases dry_run <;> simp
          · rw [i2]; simp
          · rw [i5]; cases dry_run <;> simp
        | false =>
          have hsd : shouldDelete tagsMap ex t = false := by
            simp only [shouldDelete, hm]; rw [hs, hl]; simp only [hcan]; simp
          have hpt : processTagE ex del tagsMap dry_run st t = (st, none) := by
            simp only [processTagE, hm]; rw [hs, hl]; simp only [hcan]; simp
          rw [hpt, hsd, hnc]
          exact ⟨⟨hck, hval⟩, by simp, by simp, by simp, by simp⟩
    | false =>
      have hsd : shouldDelete tagsMap ex t = false := by
        simp only [shouldDelete, hm]; rw [hs]; simp
      have hpt : processTagE ex del tagsMap dry_run st t = (st, none) := by
        simp only [processTagE, hm]; rw [hs]; simp
      rw [hpt, hsd, hnc]
      exact ⟨⟨hck, hval⟩, by simp, by simp, by simp, by simp⟩

theorem remove_tagsE_go_spec (ex : String → Bool) (tagsMap : List (String × String))
    (dry_run : Bool) :
    ∀ (ts : List String) (st : PassState), CacheInv ex st →
      (remove_tagsE_go ex (fun _ => none) tagsMap dry_run st ts).2 = none ∧
      CacheInv ex (remove_tagsE_go ex (fun _ => none) tagsMap dry_run st ts).1 ∧
      (remove_tagsE_go ex (fun _ => none) tagsMap dry_run st ts).1.removalLogs
        = st.removalLogs ++ ts.filter (shouldDelete tagsMap ex) ∧
      (remove_tagsE_go ex (fun _ => none) tagsMap dry_run st ts).1.deletes
        = st.deletes ++ (if dry_run then [] else ts.filter (shouldDelete tagsMap ex)) ∧
      (∀ d, d ∈ (remove_tagsE_go ex (fun _ => none) tagsMap dry_run st ts).1.checks ↔
            d ∈ st.checks ∨ ∃ t ∈ ts, needsCheckT tagsMap t = some d) ∧
      (st.checks.Nodup → (remove_tagsE_go ex (fun _ => none) tagsMap dry_run st ts).1.checks.Nodup)
  | [], st, hinv => by
    refine ⟨rfl, hinv, by simp [remove_tagsE_go], by cases dry_run <;> simp [remove_tagsE_go],
      by simp [remove_tagsE_go], by simp [remove_tagsE_go]⟩
  | t :: ts, st, hinv => by
    obtain ⟨s1, s2, s3, s4, s5⟩ := processTagE_spec ex (fun _ => none) tagsMap dry_run st t hinv
    cases hP : processTagE ex (fun _ => none) tagsMap dry_run st t with
    | mk st1 o =>
      rw [hP] at s1 s2 s3 s4 s5
      dsimp only at s1 s2 s3 s4 s5
      have ho : o = none := by simpa using s5
      subst ho
      have hgo : remove_tagsE_go ex (fun _ => none) tagsMap dry_run st (t :: ts)
          = remove_tagsE_go ex (fun _ => none) tagsMap dry_run st1 ts := by
        simp only [remove_tagsE_go, hP]
      obtain ⟨g1, g2, g3, g4, g5, g6⟩ := remove_tagsE_go_spec ex tagsMap dry_run ts st1 s1
      rw [hgo]
      have hmem : ∀ d, d ∈ st1.checks ↔ d ∈ st.checks ∨ needsCheckT tagsMap t = some d := by
        intro d
        rw [s4]
        cases hn : needsCheckT tagsMap t with
        | none => simp
        | some d0 =>
          dsimp only
          by_cases hd0 : d0 ∈ st.checks
          · rw [if_pos hd0]
            simp only [List.append_nil, Option.some.injEq]
            constructor
            · exact fun h => Or.inl h
            · rintro (h | rfl)
              · exact h
              · exact hd0
          · rw [if_neg hd0]
            simp only [List.mem_append, List.mem_singleton, Option.some.injEq]
            constructor
            · rintro (h | h)
              · exact Or.inl h
              · exact Or.inr h.symm
            · rintro (h | h)
              · exact Or.inl h
              · exact Or.inr h.symm
      refine ⟨g1, g2, ?_, ?_, ?_, ?_⟩
      · rw [g3, s2]
        cases hsd : shouldDelete tagsMap ex t <;> simp [List.filter_cons, hsd]
      · rw [g4, s3]
        cases dry_run with
        | true => simp
        | false =>
          cases hsd : shouldDelete tagsMap ex t <;>
            simp [List.filter_cons, hsd]
      · intro d
        rw [g5 d]
        constructor
        · rintro (h | h)
          · rcases (hmem d).mp h with h1 | h1
            · exact Or.inl h1
            · exact Or.inr ⟨t, by simp, h1⟩
          · obtain ⟨u, hu, hnu⟩ := h
            exact Or.inr ⟨u, by simp [hu], hnu⟩
        · rintro (h | h)
          · exact Or.inl ((hmem d).mpr (Or.inl h))
          · obtain ⟨u, hu, hnu⟩ := h
            rcases List.mem_cons.mp hu with h1 | h1
            · subst h1; exact Or.inl ((hmem d).mpr (Or.inr hnu))
            · exact Or.inr ⟨u, h1, hnu⟩
      · intro hnd
        apply g6
        rw [s4]
        cases hn : needsCheckT tagsMap t with
        | none => simpa using hnd
        | some d0 =>
          dsimp only
          by_cases hd0 : d0 ∈ st.checks
          · rw [if_pos hd0]; simpa using hnd
          · rw [if_neg hd0]
            rw [← List.concat_eq_append]
            exact List.Nodup.concat hd0 hnd

theorem CacheInv_init (ex : String → Bool) : CacheInv ex initPassState :=
  ⟨rfl, by intro p hp; simp [initPassState] at hp⟩

/-- Summary of one full (non-aborting) `remove_tags` pass: no failure,
the removal log and the delete calls are the tags satisfying
`shouldDelete` in snapshot order (no delete calls at all under dry run),
and the `manifest_exists` calls are exactly the digests demanded by
`needsCheckT`, each at most once. -/
theorem remove_tags_spec (tagsMap : List (String × String)) (ex : String → Bool)
    (dry_run : Bool) :
    (remove_tagsE tagsMap ex (fun _ => none) dry_run).2 = none ∧
    (remove_tags tagsMap ex dry_run).removalLogs
      = (tagsMap.map Prod.fst).filter (shouldDelete tagsMap ex) ∧
    (remove_tags tagsMap ex dry_run).deletes
      = (if dry_run then [] else (tagsMap.map Prod.fst).filter (shouldDelete tagsMap ex)) ∧
    (∀ d, d ∈ (remove_tags tagsMap ex dry_run).checks ↔
          ∃ t ∈ tagsMap.map Prod.fst, needsCheckT tagsMap t = some d) ∧
    (remove_tags tagsMap ex dry_run).checks.Nodup := by
  obtain ⟨g1, g2, g3, g4, g5, g6⟩ :=
    remove_tagsE_go_spec ex tagsMap dry_run (tagsMap.map Prod.fst) initPassState
      (CacheInv_init ex)
  refine ⟨g1, ?_, ?_, ?_, ?_⟩
  · simpa [remove_tags, remove_tagsE, initPassState] using g3
  · simpa [remove_tags, remove_tagsE, initPassState] using g4
  · intro d
    have := g5 d
    simpa [remove_tags, remove_tagsE, initPassState] using this
  · exact g6 (by simp [initPassState])

theorem needsCheckT_some {tagsMap : List (String × String)} {t d : String}
    (h : needsCheckT tagsMap t = some d) :
    ∃ hex, matchArtifact t = some hex ∧ d = "sha256:" ++ hex ∧
      (tagsMap.map Prod.snd).contains d = false := by
  unfold needsCheckT at h
  cases hm : matchArtifact t with
  | none => rw [hm] at h; simp at h
  | some hex =>
    rw [hm] at h
    dsimp only at h
    cases hc : (tagsMap.map Prod.snd).contains ("sha256:" ++ hex) with
    | true => rw [hc] at h; simp at h
    | false =>
      rw [hc] at h
      simp at h
      refine ⟨hex, rfl, h.symm, ?_⟩
      rw [← h]
      exact hc

theorem needsCheckT_of_matched {tagsMap : List (String × String)} {t hex : String}
    (hm : matchArtifact t = some hex)
    (hc : (tagsMap.map Prod.snd).contains ("sha256:" ++ hex) = false) :
    needsCheckT tagsMap t = some ("sha256:" ++ hex) := by
  unfold needsCheckT
  rw [hm]
  dsimp only
  rw [hc]
  simp

theorem shouldDelete_matched {tagsMap : List (String × String)} {ex : String → Bool}
    {t hex : String} (hm : matchArtifact t = some hex) :
    shouldDelete tagsMap ex t = true ↔
      (("sha256:" ++ hex) ∉ tagsMap.map Prod.snd ∧ ex ("sha256:" ++ hex) = false) := by
  unfold shouldDelete
  rw [hm]
  dsimp only
  cases hc : (tagsMap.map Prod.snd).contains ("sha256:" ++ hex) with
  | true =>
    have : ("sha256:" ++ hex) ∈ tagsMap.map Prod.snd := List.elem_iff.mp hc
    simp [this]
  | false =>
    have : ("sha256:" ++ hex) ∉ tagsMap.map Prod.snd := by
      intro hmem
      have h2 : (List.map Prod.snd tagsMap).contains ("sha256:" ++ hex) = true :=
        List.elem_iff.mpr hmem
      rw [h2] at hc
      exact Bool.noConfusion hc
    simp [this]

theorem contains_eq_true_of_mem {l : List String} {a : String} (h : a ∈ l) :
    l.contains a = true := List.elem_iff.mpr h

theorem contains_eq_false_of_not_mem {l : List String} {a : String} (h : a ∉ l) :
    l.contains a = false := by
  cases hc : l.contains a with
  | false => rfl
  | true => exact absurd (List.elem_iff.mp hc) h

theorem shouldDelete_src {tagsMap : List (String × String)} {ex : String → Bool}
    {t : String} (hm : matchArtifact t = none) (hs : strEndsWith t ".src" = true) :
    shouldDelete tagsMap ex t = true ↔
      (lookupTag tagsMap (removesuffix t ".src") = none ∨
       ∃ d, lookupTag tagsMap (removesuffix t ".src") = some d ∧
         (replaceColonDash d ++ ".src") ∈ tagsMap.map Prod.fst) := by
  unfold shouldDelete
  rw [hm]
  dsimp only
  rw [hs, if_pos rfl]
  cases hl : lookupTag tagsMap (removesuffix t ".src") with
  | none => simp
  | some d =>
    dsimp only
    constructor
    · intro h
      exact Or.inr ⟨d, rfl, List.elem_iff.mp h⟩
    · rintro (h | ⟨d2, hd2, hmem⟩)
      · exact Option.noConfusion h
      · injection hd2 with h2
        subst h2
        exact contains_eq_true_of_mem hmem

/-- C1: for every snapshot, a rule-1 artifact tag whose embedded digest
is among the snapshot's manifest digests is never deleted, and no
`manifest_exists` check is ever issued for that digest; a rule-1 tag is
deleted only when a confirming `manifest_exists` call was issued for its
target digest during the pass and that check answered false. -/
theorem C1_rule1_no_accidental_deletion (tagsMap : List (String × String))
    (ex : String → Bool) (dry_run : Bool) (t hex : String)
    (hm : matchArtifact t = some hex) :
    (("sha256:" ++ hex) ∈ tagsMap.map Prod.snd →
      t ∉ (remove_tags tagsMap ex dry_run).deletes ∧
      ("sha256:" ++ hex) ∉ (remove_tags tagsMap ex dry_run).checks) ∧
    (t ∈ (remove_tags tagsMap ex false).deletes →
      ("sha256:" ++ hex) ∈ (remove_tags tagsMap ex false).checks ∧
      ex ("sha256:" ++ hex) = false) := by
  obtain ⟨_, _, hdel, hchk, _⟩ := remove_tags_spec tagsMap ex dry_run
  obtain ⟨_, _, hdel0, hchk0, _⟩ := remove_tags_spec tagsMap ex false
  constructor
  · intro hpresent
    constructor
    · rw [hdel]
      cases dry_run with
      | true => simp
      | false =>
        simp only [Bool.false_eq_true, if_false]
        intro hmemf
        have hsd := (List.mem_filter.mp hmemf).2
        rw [shouldDelete_matched hm] at hsd
        exact hsd.1 hpresent
    · intro hmemc
      obtain ⟨u, _, hnu⟩ := (hchk _).mp hmemc
      obtain ⟨hex2, _, _, hcon⟩ := needsCheckT_some hnu
      rw [contains_eq_true_of_mem hpresent] at hcon
      exact Bool.noConfusion hcon
  · intro hindel
    rw [hdel0] at hindel
    simp only [Bool.false_eq_true, if_false] at hindel
    have hmemk := (List.mem_filter.mp hindel).1
    have hsd := (List.mem_filter.mp hindel).2
    rw [shouldDelete_matched hm] at hsd
    refine ⟨?_, hsd.2⟩
    exact (hchk0 _).mpr ⟨t, hmemk,
      needsCheckT_of_matched hm (contains_eq_false_of_not_mem hsd.1)⟩

theorem C1_witness :
    "sha256-ab.att" ∉ (remove_tags [("sha256-ab.att", "sha256:ab")]
        (fun _ => false) false).deletes ∧
    "sha256:ab" ∉ (remove_tags [("sha256-ab.att", "sha256:ab")]
        (fun _ => false) false).checks := by
  have h := C1_rule1_no_accidental_deletion [("sha256-ab.att", "sha256:ab")]
      (fun _ => false) false "sha256-ab.att" "ab" (by decide)
  exact h.1 (by decide)

/-- C3: in one repository pass, `manifest_exists` is invoked at most
once per distinct digest (the call list has no duplicates), and it is
never invoked for a digest already present among the snapshot's manifest
digests. -/
theorem C3_at_most_once_verification (tagsMap : List (String × String))
    (ex : String → Bool) (dry_run : Bool) :
    (remove_tags tagsMap ex dry_run).checks.Nodup ∧
    ∀ d ∈ (remove_tags tagsMap ex dry_run).checks, d ∉ tagsMap.map Prod.snd := by
  obtain ⟨_, _, _, hchk, hnd⟩ := remove_tags_spec tagsMap ex dry_run
  refine ⟨hnd, ?_⟩
  intro d hd hmem
  obtain ⟨u, _, hnu⟩ := (hchk d).mp hd
  obtain ⟨hex2, _, _, hcon⟩ := needsCheckT_some hnu
  rw [contains_eq_true_of_mem hmem] at hcon
  exact Bool.noConfusion hcon

theorem C3_witness :
    (remove_tags [("sha256-ab.att", "sha256:zz"), ("sha256-ab.sbom", "sha256:yy")]
        (fun _ => false) false).checks.Nodup ∧
    "sha256:ab" ∉ List.map Prod.snd
      [("sha256-ab.att", "sha256:zz"), ("sha256-ab.sbom", "sha256:yy")] := by
  have h := C3_at_most_once_verification
      [("sha256-ab.att", "sha256:zz"), ("sha256-ab.sbom", "sha256:yy")]
      (fun _ => false) false
  exact ⟨h.1, h.2 "sha256:ab" (by decide)⟩

/-- C4: a tag matching the artifact pattern is kept when its embedded
digest appears among the snapshot's digests, and otherwise is deleted
exactly when the `manifest_exists` check for the digest answers false
(kept when the manifest exists despite being absent from the index). -/
theorem C4_artifact_tag_rule (tagsMap : List (String × String)) (ex : String → Bool)
    (t hex : String) (hmem : t ∈ tagsMap.map Prod.fst)
    (hm : matchArtifact t = some hex) :
    t ∈ (remove_tags tagsMap ex false).deletes ↔
      (("sha256:" ++ hex) ∉ tagsMap.map Prod.snd ∧ ex ("sha256:" ++ hex) = false) := by
  obtain ⟨_, _, hdel, _, _⟩ := remove_tags_spec tagsMap ex false
  rw [hdel]
  simp only [Bool.false_eq_true, if_false]
  rw [List.mem_filter, shouldDelete_matched hm]
  simp [hmem]

theorem C4_witness :
    "sha256-ab.att" ∈ (remove_tags [("sha256-ab.att", "sha256:zz")]
        (fun _ => false) false).deletes := by
  exact (C4_artifact_tag_rule [("sha256-ab.att", "sha256:zz")] (fun _ => false)
      "sha256-ab.att" "ab" (by decide) (by decide)).mpr ⟨by decide, rfl⟩

/-- C5: a `.src` tag not matching the artifact pattern is deleted
exactly when its binary tag is absent from the snapshot, or when the
binary tag is present and the canonical name derived from its digest is
also in the snapshot; and rule 2 never touches the `manifest_exists`
machinery (no check call, no cache entry). -/
theorem C5_legacy_src_rule (tagsMap : List (String × String)) (ex : String → Bool)
    (t : String) (hm : matchArtifact t = none) (hs : strEndsWith t ".src" = true)
    (hmem : t ∈ tagsMap.map Prod.fst) :
    (t ∈ (remove_tags tagsMap ex false).deletes ↔
      (lookupTag tagsMap (removesuffix t ".src") = none ∨
       ∃ d, lookupTag tagsMap (removesuffix t ".src") = some d ∧
         (replaceColonDash d ++ ".src") ∈ tagsMap.map Prod.fst)) ∧
    (∀ (del : String → Option RunError) (dry_run : Bool) (st : PassState),
       (processTagE ex del tagsMap dry_run st t).1.checks = st.checks ∧
       (processTagE ex del tagsMap dry_run st t).1.checked = st.checked) := by
  obtain ⟨_, _, hdel, _, _⟩ := remove_tags_spec tagsMap ex false
  constructor
  · rw [hdel]
    simp only [Bool.false_eq_true, if_false]
    rw [List.mem_filter, shouldDelete_src hm hs]
    simp [hmem]
  · intro del dry_run st
    simp only [processTagE, hm]
    rw [hs, if_pos rfl]
    cases hl : lookupTag tagsMap (removesuffix t ".src") with
    | none =>
      dsimp only
      cases dry_run <;> simp [issueRemoval]
    | some d =>
      dsimp only
      cases hcan : (tagsMap.map Prod.fst).contains (replaceColonDash d ++ ".src") with
      | true => cases dry_run <;> simp [issueRemoval]
      | false => simp

theorem C5_witness :
    "orphan.src" ∈ (remove_tags [("orphan.src", "sha256:d2")]
        (fun _ => true) false).deletes ∧
    (processTagE (fun _ => true) (fun _ => none) [("orphan.src", "sha256:d2")] false
        initPassState "orphan.src").1.checks = initPassState.checks := by
  have h := C5_legacy_src_rule [("orphan.src", "sha256:d2")] (fun _ => true)
      "orphan.src" (by decide) (by decide) (by decide)
  exact ⟨h.1.mpr (Or.inl (by decide)), (h.2 (fun _ => none) false initPassState).1⟩

/-- C6: under dry run, `remove_tags` issues no delete call at all, and
the removal decisions it reports are exactly the tags a real (non-dry)
run over the same snapshot would delete. -/
theorem C6_dry_run_zero_mutations (tagsMap : List (String × String))
    (ex : String → Bool) :
    (remove_tags tagsMap ex true).deletes = [] ∧
    (remove_tags tagsMap ex true).removalLogs = (remove_tags tagsMap ex false).deletes := by
  obtain ⟨_, hlog1, hdel1, _, _⟩ := remove_tags_spec tagsMap ex true
  obtain ⟨_, _, hdel0, _, _⟩ := remove_tags_spec tagsMap ex false
  constructor
  · rw [hdel1]
    simp
  · rw [hlog1, hdel0]
    simp

/-- C8: `delete_image_tag` returns normally when the DELETE call raises
a 404 (tag already gone); any other raised HTTP error propagates to the
caller; and a successful response with a status other than 200 or 204
raises an error. -/
theorem C8_delete_idempotent_statuses :
    delete_image_tag (HttpOutcome.httpError 404) = none ∧
    (∀ s : Nat, s ≠ 404 →
      delete_image_tag (HttpOutcome.httpError s) = some (RunError.httpError s)) ∧
    (∀ s : Nat, s = 200 ∨ s = 204 → delete_image_tag (HttpOutcome.ok s) = none) ∧
    (∀ s : Nat, s ≠ 200 → s ≠ 204 →
      delete_image_tag (HttpOutcome.ok s) = some RunError.runtimeErr) := by
  refine ⟨rfl, ?_, ?_, ?_⟩
  · intro s hs
    simp [delete_image_tag, hs]
  · rintro s (rfl | rfl) <;> simp [delete_image_tag]
  · intro s h1 h2
    simp [delete_image_tag, h1, h2]

theorem C8_witness :
    delete_image_tag (HttpOutcome.httpError 500) = some (RunError.httpError 500) ∧
    delete_image_tag (HttpOutcome.ok 204) = none ∧
    delete_image_tag (HttpOutcome.ok 500) = some RunError.runtimeErr := by
  have h := C8_delete_idempotent_statuses
  exact ⟨h.2.1 500 (by decide), h.2.2.1 204 (Or.inr rfl),
    h.2.2.2 500 (by decide) (by decide)⟩

/-- C2 counterexample: both repositories list their tags successfully,
and the only failure is a delete call in the first repository raising a
non-NotFound HTTP error (500); yet the run ends there and the second
repository is never processed — there is no per-repository failure
isolation in the code. -/
theorem C2_counterexample :
    process_repositories
        (fun _ => [[⟨"sha256-ab.att", "sha256:zz", none⟩]]) none
        (fun _ _ => false)
        (fun _ _ => delete_image_tag (HttpOutcome.httpError 500)) false
        [⟨"ns", "repo1"⟩, ⟨"ns", "repo2"⟩]
      = ([⟨"ns", "repo1"⟩], some (RunError.httpError 500)) := by decide

/-- C2 (amended): any error raised while processing one repository —
a listing failure or a failed delete call alike — propagates and ends
the whole run at that repository: when every repository before `r`
processes cleanly and `r`'s body raises `e`, the run stops with `e`
and no repository after `r` is processed. -/
theorem C2_failure_aborts_whole_run (pagesOf : RepoId → List (List TagRecord))
    (tr : Option (Int × Int)) (ex : RepoId → String → Bool)
    (del : RepoId → String → Option RunError) (dry_run : Bool)
    (pre : List RepoId) (r : RepoId) (rs : List RepoId) (e : RunError)
    (hpre : ∀ p ∈ pre, repoStep pagesOf tr ex del dry_run p = none)
    (hr : repoStep pagesOf tr ex del dry_run r = some e) :
    process_repositories pagesOf tr ex del dry_run (pre ++ r :: rs)
      = (pre ++ [r], some e) := by
  induction pre with
  | nil => simp [process_repositories, hr]
  | cons p ps ih =>
    have hp : repoStep pagesOf tr ex del dry_run p = none := hpre p (by simp)
    have ihh := ih (fun q hq => hpre q (by simp [hq]))
    simp [process_repositories, hp, ihh]

theorem C2_amended_witness :
    process_repositories
        (fun r => if r.name = "r0" then [] else [[⟨"sha256-ab.att", "sha256:zz", none⟩]])
        none (fun _ _ => false) (fun _ _ => some (RunError.httpError 502)) false
        [⟨"n", "r0"⟩, ⟨"n", "r1"⟩, ⟨"n", "r2"⟩]
      = ([⟨"n", "r0"⟩, ⟨"n", "r1"⟩], some (RunError.httpError 502)) := by
  have h := C2_failure_aborts_whole_run
      (fun r => if r.name = "r0" then [] else [[⟨"sha256-ab.att", "sha256:zz", none⟩]])
      none (fun _ _ => false) (fun _ _ => some (RunError.httpError 502)) false
      [⟨"n", "r0"⟩] ⟨"n", "r1"⟩ [⟨"n", "r2"⟩] (RunError.httpError 502)
      (by decide) (by decide)
  simpa using h

/-- C7: with a time window, out-of-window tags are removed from the
fetched snapshot itself, not merely kept: here the binary tag `foo`
(created at 3, outside the window [5, 10], but present in the
registry's listing) is absent from the returned snapshot, so rule 2
classifies the in-window legacy tag `foo.src` as Delete even though its
base binary tag still exists — with the `manifest_exists` oracle
constantly true. -/
theorem C7_window_shrinks_snapshot_rule2 :
    get_quay_tags (some (10, 5))
        [[⟨"foo.src", "sha256:d2", some 7⟩, ⟨"foo", "sha256:d1", some 3⟩]]
      = Except.ok [("foo.src", "sha256:d2")] ∧
    "foo" ∈ ([[⟨"foo.src", "sha256:d2", some 7⟩, ⟨"foo", "sha256:d1", some 3⟩]].flatten.map
        TagRecord.name) ∧
    (remove_tags [("foo.src", "sha256:d2")] (fun _ => true) false).deletes
      = ["foo.src"] := by
  refine ⟨by rfl, by decide, by decide⟩

/-! Lemmas about the windowed fetch loop. -/

theorem takeWhile_append_all {α : Type} (p : α → Bool) :
    ∀ (l1 l2 : List α), l1.all p = true →
      (l1 ++ l2).takeWhile p = l1 ++ l2.takeWhile p
  | [], l2, _ => by simp
  | a :: l1, l2, h => by
    simp only [List.all_cons, Bool.and_eq_true] at h
    simp [List.takeWhile_cons, h.1, takeWhile_append_all p l1 l2 h.2]

theorem takeWhile_append_stop {α : Type} (p : α → Bool) :
    ∀ (l1 l2 : List α), l1.all p = false →
      (l1 ++ l2).takeWhile p = l1.takeWhile p
  | [], _, h => by simp at h
  | a :: l1, l2, h => by
    cases hpa : p a with
    | false => simp [List.takeWhile_cons, hpa]
    | true =>
      have hrest : l1.all p = false := by
        simp only [List.all_cons, hpa, Bool.true_and] at h
        exact h
      simp [List.takeWhile_cons, hpa, takeWhile_append_stop p l1 l2 hrest]

theorem takeWhile_all_true {α : Type} (p : α → Bool) :
    ∀ l : List α, l.all p = true → l.takeWhile p = l
  | [], _ => rfl
  | a :: l, h => by
    simp only [List.all_cons, Bool.and_eq_true] at h
    simp [List.takeWhile_cons, h.1, takeWhile_all_true p l h.2]

/-- One page of the windowed filter: when every record carries a
`start_ts`, the collected pairs are the in-window head of the page, and
`stop_query` is set exactly when some record of the page is out of
window (on either side). -/
theorem collect_page_spec (from_ts to_ts : Int) :
    ∀ (page : List TagRecord), (∀ r ∈ page, r.start_ts ≠ none) →
      collect_page (some (from_ts, to_ts)) page
        = Except.ok ((page.takeWhile (inWindow from_ts to_ts)).map
            (fun r => (r.name, r.manifest_digest)),
            !page.all (inWindow from_ts to_ts))
  | [], _ => by simp [collect_page]
  | r :: rest, hts => by
    obtain ⟨ts0, hts0⟩ : ∃ ts0, r.start_ts = some ts0 := by
      cases h : r.start_ts with
      | none => exact absurd h (hts r (by simp))
      | some v => exact ⟨v, rfl⟩
    have hwin : inWindow from_ts to_ts r = decide (to_ts ≤ ts0 ∧ ts0 ≤ from_ts) := by
      simp [inWindow, hts0]
    by_cases hw : to_ts ≤ ts0 ∧ ts0 ≤ from_ts
    · have hwt : inWindow from_ts to_ts r = true := by
        rw [hwin]; exact decide_eq_true hw
      have ih := collect_page_spec from_ts to_ts rest (fun x hx => hts x (by simp [hx]))
      simp only [collect_page, hts0]
      rw [if_pos hw, ih]
      simp [List.takeWhile_cons, List.all_cons, hwt]
    · have hwf : inWindow from_ts to_ts r = false := by
        rw [hwin]; exact decide_eq_false hw
      simp only [collect_page, hts0]
      rw [if_neg hw]
      simp [List.takeWhile_cons, List.all_cons, hwf]

/-- C9 counterexample: with window [5, 10], the first listed tag is
newer than the window's upper bound (timestamp 20); the code sets
`stop_query` on it and terminates the scan at once, returning an empty
snapshot — the in-window tag `mid` (timestamp 7) that follows is
dropped, although no tag older than the lower bound was observed. -/
theorem C9_counterexample :
    get_quay_tags (some (10, 5))
        [[⟨"new", "sha256:n", some 20⟩, ⟨"mid", "sha256:m", some 7⟩]]
      = Except.ok [] := by rfl

/-- C9 (amended): the windowed fetch stops exactly at the first tag
whose timestamp falls outside `[to_ts, from_ts]` on either side —
older than the lower bound or newer than the upper bound — and returns
precisely the in-window tags observed before that stop point. -/
theorem C9_stop_on_any_out_of_window (from_ts to_ts : Int) :
    ∀ (pages : List (List TagRecord)),
      (∀ pg ∈ pages, pg ≠ []) →
      (∀ r ∈ pages.flatten, r.start_ts ≠ none) →
      get_quay_tags (some (from_ts, to_ts)) pages
        = Except.ok ((pages.flatten.takeWhile (inWindow from_ts to_ts)).map
            (fun r => (r.name, r.manifest_digest)))
  | [], _, _ => by simp [get_quay_tags]
  | pg :: rest, hne, hts => by
    have hcp := collect_page_spec from_ts to_ts pg
      (fun r hr => hts r (by simp [hr]))
    simp only [get_quay_tags, hcp]
    cases hall : pg.all (inWindow from_ts to_ts) with
    | false =>
      rw [List.flatten_cons, takeWhile_append_stop _ _ _ hall]
      simp [hall]
    | true =>
      have hpg : pg ≠ [] := hne pg (by simp)
      have hemp : pg.isEmpty = false := by
        cases pg with
        | nil => exact absurd rfl hpg
        | cons a l => rfl
      have ih := C9_stop_on_any_out_of_window from_ts to_ts rest
        (fun q hq => hne q (by simp [hq]))
        (fun r hr => hts r (by simp [hr]))
      simp only [hall, Bool.not_true, hemp]
      rw [ih, List.flatten_cons, takeWhile_append_all _ _ _ hall,
        takeWhile_all_true _ _ hall]
      simp [List.map_append]

theorem C9_witness :
    get_quay_tags (some (10, 5)) [[⟨"a", "d", some 7⟩], [⟨"b", "e", some 3⟩]]
      = Except.ok [("a", "d")] := by
  have h := C9_stop_on_any_out_of_window 10 5
      [[⟨"a", "d", some 7⟩], [⟨"b", "e", some 3⟩]] (by decide) (by decide)
  rw [h]
  rfl

theorem collect_page_keyError (from_ts to_ts : Int) :
    ∀ (pre : List TagRecord) (r : TagRecord) (rest : List TagRecord),
      (∀ p ∈ pre, inWindow from_ts to_ts p = true) → r.start_ts = none →
      collect_page (some (from_ts, to_ts)) (pre ++ r :: rest)
        = Except.error RunError.keyError
  | [], r, rest, _, hr => by simp [collect_page, hr]
  | p :: pre, r, rest, hpre, hr => by
    have hp := hpre p (by simp)
    obtain ⟨ts0, hts0, hw⟩ :
        ∃ ts0, p.start_ts = some ts0 ∧ (to_ts ≤ ts0 ∧ ts0 ≤ from_ts) := by
      unfold inWindow at hp
      cases h : p.start_ts with
      | none => rw [h] at hp; exact Bool.noConfusion hp
      | some v =>
        rw [h] at hp
        dsimp only at hp
        exact ⟨v, rfl, of_decide_eq_true hp⟩
    have ih := collect_page_keyError from_ts to_ts pre r rest
      (fun q hq => hpre q (by simp [hq])) hr
    simp only [List.cons_append, collect_page, hts0]
    rw [if_pos hw]
    simp only [List.append_eq, ih]

theorem collect_page_no_range :
    ∀ page : List TagRecord,
      collect_page none page
        = Except.ok (page.map (fun x => (x.name, x.manifest_digest)), false)
  | [] => rfl
  | t :: ts => by
    simp only [collect_page, collect_page_no_range ts, List.map_cons]

/-- C10: with a time range supplied, `get_quay_tags` reads `start_ts`
of every fetched record unguarded: a record lacking it makes the fetch
fail with a `KeyError`, even when every record before it is in the
window; without a time range the very same page is accepted in full
(only `name` and `manifest_digest` are read). -/
theorem C10_start_ts_read_unguarded (from_ts to_ts : Int)
    (pre : List TagRecord) (r : TagRecord) (rest : List TagRecord)
    (hpre : ∀ p ∈ pre, inWindow from_ts to_ts p = true)
    (hr : r.start_ts = none) :
    get_quay_tags (some (from_ts, to_ts)) [pre ++ r :: rest]
      = Except.error RunError.keyError ∧
    get_quay_tags none [pre ++ r :: rest]
      = Except.ok ((pre ++ r :: rest).map (fun x => (x.name, x.manifest_digest))) := by
  constructor
  · have hcp := collect_page_keyError from_ts to_ts pre r rest hpre hr
    simp only [get_quay_tags, hcp]
  · have hcp := collect_page_no_range (pre ++ r :: rest)
    have hemp : (pre ++ r :: rest).isEmpty = false := by
      cases pre with
      | nil => rfl
      | cons a l => rfl
    simp only [get_quay_tags, hcp, hemp]
    simp

theorem C10_witness :
    get_quay_tags (some (10, 5)) [[⟨"a", "d", none⟩]]
      = Except.error RunError.keyError ∧
    get_quay_tags none [[⟨"a", "d", none⟩]] = Except.ok [("a", "d")] := by
  have h := C10_start_ts_read_unguarded 10 5 [] ⟨"a", "d", none⟩ [] (by simp) rfl
  simpa using h

end ImagePruner
